import Mathlib

/-!
Verification of the NapkinFlow text-to-flowchart core.

This file gives a shallow embedding of the two `parseWorkflow`
implementations shipped by the repository (the full parser appended to
`src/FlowCanvas.jsx`, and the simpler one in
`src/utils/flowchartParser.js`), and of `calculateLayout` from
`src/utils/layoutEngine.js`, and proves the specification's claims about
them.

Strings are processed at the character level (`List Char`) with
structural recursion, so that every definition reduces inside the kernel
and concrete runs of the parsers can be settled by `rfl`/`decide`.
JavaScript regular expressions are translated into explicit character
scans; comments at each definition record which construct of the source
is being modelled.
-/

namespace NapkinFlow

/-- A graph node as produced by the parsers: `{ id, label, type }`, with
`type` one of the strings `"process"` or `"decision"`. -/
structure Node where
  id : String
  label : String
  type : String
deriving DecidableEq, Repr

/-- An edge as produced by the `FlowCanvas.jsx` parser: `{ from, to, label }`,
where `label` is `null` (`none`) or an edge-label string. -/
structure Edge where
  «from» : String
  «to» : String
  label : Option String
deriving DecidableEq, Repr

/-- An edge as produced by `utils/flowchartParser.js`:
`{ source, target, label }`. -/
structure PEdge where
  source : String
  target : String
  label : Option String
deriving DecidableEq, Repr

/-- The `{ nodes, edges }` result of the `FlowCanvas.jsx` parser. -/
structure Graph where
  nodes : List Node
  edges : List Edge
deriving DecidableEq, Repr

/-- The `{ nodes, edges }` result of `utils/flowchartParser.js`. -/
structure GraphFP where
  nodes : List Node
  edges : List PEdge
deriving DecidableEq, Repr

/-! ### Character-level string utilities (JS semantics) -/

/-- JavaScript whitespace, as recognised by `String.prototype.trim` and the
regexp class `\s` (the characters that occur in practice). -/
def isWSCh (c : Char) : Bool :=
  c = ' ' || c = '\t' || c = '\n' || c = '\r' || c = '\x0b' || c = '\x0c' ||
    c = Char.ofNat 0xa0

/-- JavaScript line terminators: the characters NOT matched by the regexp
metacharacter `.` (without the `s` flag). -/
def isLineTermCh (c : Char) : Bool :=
  c = '\n' || c = '\r' || c = Char.ofNat 0x2028 || c = Char.ofNat 0x2029

/-- `String.prototype.trim` on a character list. -/
def trimCh (cs : List Char) : List Char :=
  ((cs.dropWhile isWSCh).reverse.dropWhile isWSCh).reverse

/-- JS `trim` at the `String` level. -/
def jsTrim (s : String) : String :=
  String.mk (trimCh s.data)

/-- JS `toLowerCase` (ASCII range, which is all the keyword matching needs). -/
def lowerCh (cs : List Char) : List Char :=
  cs.map Char.toLower

/-- `str.split(sep)` for a one-character separator, JS semantics
(keeps empty pieces; callers trim and filter them). -/
def splitOnCh (sep : Char) : List Char → List Char → List (List Char)
  | [], acc => [acc.reverse]
  | c :: rest, acc =>
    if c = sep then acc.reverse :: splitOnCh sep rest []
    else splitOnCh sep rest (c :: acc)

/-- `branch.split(/\s*->\s*/)` up to the trimming the parser applies anyway:
split on the two-character arrow `->`. -/
def splitArrowB : List Char → List Char → List (List Char)
  | [], acc => [acc.reverse]
  | '-' :: '>' :: rest, acc => acc.reverse :: splitArrowB rest []
  | c :: rest, acc => splitArrowB rest (c :: acc)

/-- `path.split(/→|->/)` of `flowchartParser.js`: split on a unicode arrow
or on the ASCII digraph `->`. -/
def splitArrowA : List Char → List Char → List (List Char)
  | [], acc => [acc.reverse]
  | '→' :: rest, acc => acc.reverse :: splitArrowA rest []
  | '-' :: '>' :: rest, acc => acc.reverse :: splitArrowA rest []
  | c :: rest, acc => splitArrowA rest (c :: acc)

/-- `text.replace(/→/g, '->')`: arrow normalisation of the
`FlowCanvas.jsx` parser. -/
def normalizeArrows : List Char → List Char
  | [] => []
  | '→' :: rest => '-' :: '>' :: normalizeArrows rest
  | c :: rest => c :: normalizeArrows rest

/-- `cs` ends with the character `'?'` (JS `endsWith('?')`). -/
def endsQ (cs : List Char) : Bool :=
  match cs.reverse with
  | '?' :: _ => true
  | _ => false

/-- Match the regexp tail `\s+(.+)$` against `tail`: at least one whitespace
character, then a non-empty remainder free of line terminators.  Returns the
capture of `(.+)` under JS greedy/backtracking semantics (the whitespace run
is taken maximally, giving back at most enough to keep `(.+)` non-empty). -/
def wsThenRestCh (tail : List Char) : Option (List Char) :=
  let w := (tail.takeWhile isWSCh).length
  let kmax := min w (tail.length - 1)
  if kmax = 0 then none
  else
    let r := tail.drop kmax
    if r.any isLineTermCh then none else some r

/-- Check that `pre` matches `(.+\?)\s+` (the front of the two
decision-fusion regexps): after stripping a non-empty trailing whitespace
run, `pre` must end in `'?'` preceded by at least one character, none of
which is a line terminator.  Returns the capture of `(.+\?)` paired with
the given second capture. -/
def checkDecisionPre (pre second : List Char) : Option (String × String) :=
  let rp := pre.reverse
  let wsCount := (rp.takeWhile isWSCh).length
  if wsCount = 0 then none
  else
    match rp.drop wsCount with
    | '?' :: restRev =>
      if restRev.isEmpty then none
      else if restRev.any isLineTermCh then none
      else some (String.mk (restRev.reverse ++ ['?']), String.mk second)
    | _ => none

/-- Scan for the bracket of `^(.+\?)\s+\[([^\]]+)\]$`, walking the reversed
body (the token without its final `]`) from the right.  `inner` accumulates,
in source order, the characters to the right of the cursor; the scan stops
at the first `]` (the bracket contents may not contain one) and, at each
`[`, tries the candidate split, falling back to an earlier `[` on failure —
mirroring the greedy backtracking of the JS regexp engine. -/
def dbScan : List Char → List Char → Option (String × String)
  | [], _ => none
  | ']' :: _, _ => none
  | '[' :: rest, inner =>
    match (if inner.isEmpty then none else checkDecisionPre rest.reverse inner) with
    | some r => some r
    | none => dbScan rest ('[' :: inner)
  | c :: rest, inner => dbScan rest (c :: inner)

/-- `token.match(/^(.+\?)\s+\[([^\]]+)\]$/)`: a decision token fused with a
trailing bracketed edge label, e.g. `"Check? [approved]"`.  Returns the two
captures. -/
def splitDecisionBracket (t : String) : Option (String × String) :=
  match t.data.reverse with
  | ']' :: bodyRev => dbScan bodyRev []
  | _ => none

/-- The fixed edge-label keyword list of the `FlowCanvas.jsx` parser. -/
def EDGE_LABEL_KEYWORDS : List String :=
  ["yes", "no", "true", "false", "ok", "cancel"]

/-- `cs` ends with `suffix` (exact characters). -/
def endsWithCh (cs suffix : List Char) : Bool :=
  suffix.reverse.isPrefixOf cs.reverse

/-- `token.match(new RegExp("^(.+\\?)\\s+(yes|no|true|false|ok|cancel)$", 'i'))`:
a decision token fused with a trailing keyword edge label, e.g.
`"Check? yes"`.  The keyword is matched case-insensitively at the very end
of the token; the captures keep the original characters. -/
def splitDecisionKeyword (t : String) : Option (String × String) :=
  let cs := t.data
  let lower := lowerCh cs
  match EDGE_LABEL_KEYWORDS.find? (fun kw => endsWithCh lower kw.data) with
  | none => none
  | some kw =>
    let cut := cs.length - kw.data.length
    checkDecisionPre (cs.take cut) (cs.drop cut)

/-- `token.match(/^\[([^\]]+)\]$/)`: a pure bracketed edge-label token. -/
def bracketOnly (t : String) : Option String :=
  match t.data with
  | '[' :: rest =>
    match rest.reverse with
    | ']' :: innerRev =>
      if innerRev.isEmpty then none
      else if innerRev.any (· = ']') then none
      else some (String.mk innerRev.reverse)
    | _ => none
  | _ => none

/-- `token.match(/^\[([^\]]+)\]\s+(.+)$/)`: a bracketed edge label fused
with the node content that follows it, e.g. `"[yes] Node"`. -/
def bracketPrefixSplit (t : String) : Option (String × String) :=
  match t.data with
  | '[' :: rest =>
    let inner := rest.takeWhile (· ≠ ']')
    match rest.drop inner.length with
    | ']' :: tail =>
      if inner.isEmpty then none
      else
        match wsThenRestCh tail with
        | some r => some (String.mk inner, String.mk r)
        | none => none
    | _ => none
  | _ => none

/-! ### The `FlowCanvas.jsx` parser (`parseWorkflow`, lines 300-422) -/

/-- The node id scheme of `getOrCreateNode`: `` `node_${nodes.length}` ``. -/
def mkNodeId (n : Nat) : String :=
  "node_" ++ toString n

/-- `getOrCreateNode(nodes, nodeMap, label, type)`: look the cleaned label
up in the map; on a miss allocate a fresh sequential id and append the new
node.  Returns the id together with the updated node list and map. -/
def getOrCreateNode (nodes : List Node) (nodeMap : List (String × String))
    (label type : String) : String × List Node × List (String × String) :=
  match nodeMap.lookup label with
  | some id => (id, nodes, nodeMap)
  | none =>
    let id := mkNodeId nodes.length
    (id, nodes ++ [⟨id, label, type⟩], nodeMap ++ [(label, id)])

/-- The mutable state threaded through the `FlowCanvas.jsx` parser:
the accumulated nodes, the label-to-id map, the accumulated edges, and the
`lastDecisionNode` pointer. -/
structure ParseState where
  nodes : List Node
  nodeMap : List (String × String)
  edges : List Edge
  lastDecision : Option String
deriving DecidableEq, Repr

/-- The per-token preprocessing of the `FlowCanvas.jsx` parser: split a
decision token fused with a trailing bracketed label or keyword label into
two tokens. -/
def preprocessToken (token : String) : List String :=
  match splitDecisionBracket token with
  | some (a, i) => [jsTrim a, "[" ++ jsTrim i ++ "]"]
  | none =>
    match splitDecisionKeyword token with
    | some (a, k) => [jsTrim a, jsTrim k]
    | none => [token]

/-- `processedTokens` of a branch. -/
def preprocess (tokens : List String) : List String :=
  (tokens.map preprocessToken).flatten

/-- Resolution of a node token in the `FlowCanvas.jsx` parser: decide the
node type from a trailing `?` (stripping it from the label), get or create
the node, and emit the edge from `previousNodeId` (if any) carrying the
resolved edge label.  Returns the new node id together with the updated
state (including the `lastDecisionNode` update). -/
def nodeStep (prev edgeLabel : Option String) (nodeLabel : String)
    (st : ParseState) : String × ParseState :=
  let isDecision := endsQ nodeLabel.data
  let cleanLabel :=
    if isDecision then String.mk (trimCh nodeLabel.data.dropLast) else nodeLabel
  let r := getOrCreateNode st.nodes st.nodeMap cleanLabel
    (if isDecision then "decision" else "process")
  let edges' :=
    match prev with
    | some p => st.edges ++ [⟨p, r.1, edgeLabel⟩]
    | none => st.edges
  (r.1, ⟨r.2.1, r.2.2, edges', if isDecision then some r.1 else st.lastDecision⟩)

/-- One iteration of the token loop of the `FlowCanvas.jsx` parser,
returning the next `(previousNodeId, pendingEdgeLabel, state)`.  `bG` is
`branchIndex > 0`; `first` is `index === 0`.  A pure bracketed label or a
keyword (with a previous node, or at the start of a continuation branch)
only sets the pending label — resetting `previousNodeId` to the last
decision at the start of a continuation branch; anything else resolves as
a node token via `nodeStep` (splitting off a fused leading bracket
label). -/
def tokenStep (bG first : Bool) (prev pending : Option String)
    (st : ParseState) (token : String) :
    Option String × Option String × ParseState :=
  match bracketOnly token with
  | some inner =>
    ((if bG && first then st.lastDecision else prev), some (jsTrim inner), st)
  | none =>
    if EDGE_LABEL_KEYWORDS.contains (String.mk (lowerCh token.data)) &&
        (prev.isSome || (bG && first)) then
      ((if bG && first then st.lastDecision else prev), some token, st)
    else
      let el : Option String × String :=
        match bracketPrefixSplit token with
        | some (l, c) => (some (jsTrim l), jsTrim c)
        | none => (pending, token)
      let r := nodeStep prev el.1 el.2 st
      (some r.1, none, r.2)

/-- The token loop of the `FlowCanvas.jsx` parser: fold `tokenStep` over
the processed tokens (`first` becomes `false` after the first token). -/
def processTokens (bG : Bool) : List String → Bool → Option String →
    Option String → ParseState → ParseState
  | [], _, _, _, st => st
  | token :: rest, first, prev, pending, st =>
    let s := tokenStep bG first prev pending st token
    processTokens bG rest false s.1 s.2.1 s.2.2

/-- Process one `;`-branch: split on arrows, trim, drop empties, preprocess,
then run the token loop.  For `branchIndex > 0` the starting
`previousNodeId` is the `lastDecisionNode` pointer. -/
def processBranch (bG : Bool) (st : ParseState) (branch : String) : ParseState :=
  let tokens :=
    (((splitArrowB branch.data []).map trimCh).filter (· ≠ [])).map String.mk
  let ptoks := preprocess tokens
  processTokens bG ptoks true (if bG then st.lastDecision else none) none st

/-- The branch loop, carrying the branch index. -/
def processBranches (idx : Nat) (st : ParseState) : List String → ParseState
  | [] => st
  | b :: rest => processBranches (idx + 1) (processBranch (idx != 0) st b) rest

/-- `parseWorkflow` of `FlowCanvas.jsx` (lines 300-410): normalise arrows,
split into branches on `;`, and fold the branch processor over them.
Empty or whitespace-only input yields the empty graph. -/
def parseWorkflow (text : String) : Graph :=
  if trimCh text.data = [] then ⟨[], []⟩
  else
    let branches :=
      (((splitOnCh ';' (normalizeArrows text.data) []).map trimCh).filter
        (· ≠ [])).map String.mk
    let st := processBranches 0 ⟨[], [], [], none⟩ branches
    ⟨st.nodes, st.edges⟩

/-! ### The `utils/flowchartParser.js` parser -/

/-- The conditional-branch keywords of `flowchartParser.js`:
`/^(yes|no|true|false)\s+(.+)$/i`. -/
def CONDS : List String := ["yes", "no", "true", "false"]

/-- `cs` starts with `pre` (exact characters). -/
def startsWithCh (cs pre : List Char) : Bool :=
  pre.isPrefixOf cs

/-- Match `part` against `/^(yes|no|true|false)\s+(.+)$/i`; returns the
lower-cased keyword (`match[1].toLowerCase()`) and the raw second capture. -/
def condSplit (part : String) : Option (String × String) :=
  let lower := lowerCh part.data
  match CONDS.find? (fun kw => startsWithCh lower kw.data) with
  | none => none
  | some kw =>
    match wsThenRestCh (part.data.drop kw.data.length) with
    | none => none
    | some r => some (kw, String.mk r)

/-- `label.toLowerCase().replace(/[^a-z0-9]/g, '_')`: the node-id
normalisation of `flowchartParser.js`. -/
def normalizeId (s : String) : String :=
  String.mk (s.data.map (fun c =>
    let c := c.toLower
    if ('a' ≤ c && c ≤ 'z') || ('0' ≤ c && c ≤ '9') then c else '_'))

/-- `part.replace('?', '')`: JS string-pattern `replace` removes only the
first occurrence. -/
def removeFirstQ : List Char → List Char
  | [] => []
  | '?' :: rest => rest
  | c :: rest => c :: removeFirstQ rest

/-- `part.includes('?')`. -/
def containsQ (s : String) : Bool :=
  s.data.any (· = '?')

/-- The duplicate-suppression key of `flowchartParser.js`:
`` `${source}-${target}-${label || ''}` ``. -/
def edgeKey (s t : String) (l : Option String) : String :=
  s ++ "-" ++ t ++ "-" ++ l.getD ""

/-- The mutable state of `flowchartParser.js`: node list, the set of node
ids already in the `nodeMap`, and the edge list. -/
structure FPState where
  nodes : List Node
  ids : List String
  edges : List PEdge
deriving DecidableEq, Repr

/-- The guarded node push of `flowchartParser.js`: add the node only when
its id is not yet in the map. -/
def addNodeFP (st : FPState) (nodeId nodeLabel : String) (isDecision : Bool) :
    FPState :=
  if st.ids.contains nodeId then st
  else
    { st with
      nodes := st.nodes ++
        [⟨nodeId, nodeLabel, if isDecision then "decision" else "process"⟩],
      ids := st.ids ++ [nodeId] }

/-- The guarded edge push of `flowchartParser.js`: skip the push when an
edge with the same `` `${source}-${target}-${label || ''}` `` key exists. -/
def addEdgeFP (st : FPState) (s t : String) (l : Option String) : FPState :=
  if st.edges.any (fun e => edgeKey e.source e.target e.label == edgeKey s t l) then
    st
  else { st with edges := st.edges ++ [⟨s, t, l⟩] }

/-- One iteration of the `for (let i = 0; ...)` part loop of
`flowchartParser.js`: detect a decision by `includes('?')`, split off a
leading conditional keyword (`i > 0` only), create the node if its
normalised id is new, and (when a previous part exists) add the edge from
the previous part — normalising the previous part's id from its label
with the first `'?'` removed, and attaching the condition only when the
previous part contains `'?'`. -/
def partStepFP (i : Nat) (prevPart : Option String) (st : FPState)
    (part : String) : FPState :=
  let cm := if i > 0 then condSplit part else none
  let nodeLabel :=
    match cm with
    | some (_, m2) => jsTrim m2
    | none => part
  let nodeId := normalizeId nodeLabel
  let st1 := addNodeFP st nodeId nodeLabel (containsQ part)
  match prevPart with
  | none => st1
  | some pp =>
    let hasQ := containsQ pp
    let prevLabel := if hasQ then jsTrim (String.mk (removeFirstQ pp.data)) else pp
    let edgeCondition : Option String :=
      if hasQ then
        (match cm with
          | some (kw, _) => some kw
          | none => none)
      else none
    addEdgeFP st1 (normalizeId prevLabel) nodeId edgeCondition

/-- The part loop of `flowchartParser.js`, carrying the index `i` and the
previous part `parts[i-1]`. -/
def processPartsFP : Nat → Option String → FPState → List String → FPState
  | _, _, st, [] => st
  | i, prevPart, st, part :: rest =>
    processPartsFP (i + 1) (some part) (partStepFP i prevPart st part) rest

/-- `parseWorkflow` of `utils/flowchartParser.js` (lines 6-80). -/
def parseWorkflowFP (text : String) : GraphFP :=
  if trimCh text.data = [] then ⟨[], []⟩
  else
    let paths :=
      (((splitOnCh ';' text.data []).map trimCh).filter (· ≠ [])).map String.mk
    let st := paths.foldl (fun st path =>
      let parts :=
        (((splitArrowA path.data []).map trimCh).filter (· ≠ [])).map String.mk
      processPartsFP 0 none st parts) ⟨[], [], []⟩
    ⟨st.nodes, st.edges⟩

/-! ### The layout engine (`utils/layoutEngine.js`)

`calculateLayout` delegates ranking and coordinate assignment to the
third-party `dagre` library.  The library is modelled here by a
deterministic hierarchical layout (`dagreLayout*` definitions below):
longest-path ranks, within-rank order by insertion order, and positions
derived from them.  One behaviour of the real `dagre`/`graphlib` pair is
preserved exactly because the claims depend on it: `g.setEdge(v, w)`
silently creates any endpoint that was never added via `g.setNode`,
with default (zero) dimensions, and `dagre.layout` lays such graphs out
without reporting any error. -/

/-- The model of a `dagre.graphlib.Graph`: nodes with `(id, width, height)`
in insertion order, and edges `(source, target)`. -/
structure DGraph where
  dnodes : List (String × Nat × Nat)
  dedges : List (String × String)
deriving DecidableEq, Repr

/-- `g.setNode(id, {width, height})`: overwrite or append. -/
def dSetNode (g : DGraph) (id : String) (w h : Nat) : DGraph :=
  if g.dnodes.any (fun p => p.1 == id) then
    { g with dnodes := g.dnodes.map (fun p => if p.1 == id then (id, w, h) else p) }
  else
    { g with dnodes := g.dnodes ++ [(id, w, h)] }

/-- graphlib's implicit node creation: `setEdge` ensures both endpoints
exist, creating missing ones with default (zero) dimensions. -/
def dEnsureNode (g : DGraph) (id : String) : DGraph :=
  if g.dnodes.any (fun p => p.1 == id) then g
  else { g with dnodes := g.dnodes ++ [(id, 0, 0)] }

/-- `g.setEdge(source, target)`. -/
def dSetEdge (g : DGraph) (s t : String) : DGraph :=
  dSetEdge2 (dEnsureNode (dEnsureNode g s) t) s t
where
  dSetEdge2 (g : DGraph) (s t : String) : DGraph :=
    { g with dedges := g.dedges ++ [(s, t)] }

/-- One relaxation pass of longest-path ranking. -/
def relaxOnce (edges : List (String × String)) (ranks : List (String × Nat)) :
    List (String × Nat) :=
  edges.foldl (fun rs e =>
    let ru := (rs.lookup e.1).getD 0
    rs.map (fun p => if p.1 == e.2 then (p.1, max p.2 (ru + 1)) else p)) ranks

/-- Longest-path ranks of the model layout, by `|nodes|` relaxation passes
(enough for any acyclic graph; always terminating). -/
def dRanks (g : DGraph) : List (String × Nat) :=
  (List.range g.dnodes.length).foldl (fun rs _ => relaxOnce g.dedges rs)
    (g.dnodes.map (fun p => (p.1, 0)))

/-- Within-rank position of a node: its index among same-rank nodes in
insertion order. -/
def rankIndexOf (ranks : List (String × Nat)) (dnodes : List (String × Nat × Nat))
    (id : String) : Nat :=
  let r := (ranks.lookup id).getD 0
  ((dnodes.takeWhile (fun p => p.1 != id)).filter
    (fun p => (ranks.lookup p.1).getD 0 == r)).length

/-- Centre coordinates assigned to a node by the model layout, using the
spacing options `calculateLayout` passes to dagre
(`nodesep: 80`, `ranksep: 100`, `marginx/marginy: 40`). -/
def dNodePos (g : DGraph) (id : String) : Nat × Nat :=
  let ranks := dRanks g
  let r := (ranks.lookup id).getD 0
  let j := rankIndexOf ranks g.dnodes id
  let wh := (g.dnodes.lookup id).getD (0, 0)
  (40 + j * 230 + wh.1 / 2, 40 + r * 180 + wh.2 / 2)

/-- The `width`/`height` the model layout records on the graph. -/
def dDims (g : DGraph) : Nat × Nat :=
  (g.dnodes.foldl (fun acc p => max acc ((dNodePos g p.1).1 + p.2.1 / 2 + 40)) 0,
   g.dnodes.foldl (fun acc p => max acc ((dNodePos g p.1).2 + p.2.2 / 2 + 40)) 0)

/-- A positioned node of the layout result: the node fields spread together
with `x`, `y`, `width`, `height`. -/
structure PNode where
  id : String
  label : String
  type : String
  x : Nat
  y : Nat
  width : Nat
  height : Nat
deriving DecidableEq, Repr

/-- The `{ nodes, edges, width, height }` result of `calculateLayout`. -/
structure Layout where
  nodes : List PNode
  edges : List PEdge
  width : Nat
  height : Nat
deriving DecidableEq, Repr

/-- `calculateLayout(nodes, edges)` of `utils/layoutEngine.js`: build the
dagre graph (decision nodes 120×80, process nodes 150×60), add every edge
(implicitly creating unknown endpoints), lay out, then read back positions
for the input nodes and the graph dimensions (`|| 800` / `|| 600`
fallbacks).  The source contains no validation and no error path: the
function always returns a layout. -/
def calculateLayout (nodes : List Node) (edges : List PEdge) : Layout :=
  let g : DGraph :=
    nodes.foldl (fun g node =>
      let width := if node.type == "decision" then 120 else 150
      let height := if node.type == "decision" then 80 else 60
      dSetNode g node.id width height) ⟨[], []⟩
  let g := edges.foldl (fun g e => dSetEdge g e.source e.target) g
  let positionedNodes := nodes.map (fun node =>
    let wh := (g.dnodes.lookup node.id).getD (0, 0)
    let xy := dNodePos g node.id
    ⟨node.id, node.label, node.type, xy.1, xy.2, wh.1, wh.2⟩)
  let dims := dDims g
  ⟨positionedNodes, edges,
    if dims.1 == 0 then 800 else dims.1,
    if dims.2 == 0 then 600 else dims.2⟩

/-! ### Specification predicates -/

/-- The ids of a node list, in order. -/
def nodeIds (ns : List Node) : List String :=
  ns.map Node.id

/-- The decision-detection contract for a single node of the
`FlowCanvas.jsx` parser: its type is one of the two recognised strings,
and there is a source node token `L` such that the node is a decision
exactly when `L` ends in `'?'`, with the stored label equal to `L` minus
a stripped trailing `'?'` (trimmed) for decisions and to `L` itself
otherwise. -/
def NodeOk (n : Node) : Prop :=
  (n.type = "decision" ∨ n.type = "process") ∧
  ∃ L : String, (n.type = "decision" ↔ endsQ L.data = true) ∧
    n.label = (if endsQ L.data then String.mk (trimCh L.data.dropLast) else L)

/-- The well-formedness invariant maintained by the `FlowCanvas.jsx`
parser state: the map mirrors the node list, ids are sequential, every
edge endpoint and the `lastDecisionNode` pointer are ids of existing
nodes, labels are pairwise distinct, and every node satisfies the
decision-detection contract. -/
def Inv (st : ParseState) : Prop :=
  st.nodeMap = st.nodes.map (fun n => (n.label, n.id)) ∧
  nodeIds st.nodes = (List.range st.nodes.length).map mkNodeId ∧
  (∀ e ∈ st.edges, e.«from» ∈ nodeIds st.nodes ∧ e.«to» ∈ nodeIds st.nodes) ∧
  (∀ d, st.lastDecision = some d → d ∈ nodeIds st.nodes) ∧
  (st.nodes.map Node.label).Nodup ∧
  (∀ n ∈ st.nodes, NodeOk n)

/-- Two `flowchartParser.js` edges have different duplicate-suppression
keys. -/
def KeyDistinct (e1 e2 : PEdge) : Prop :=
  edgeKey e1.source e1.target e1.label ≠ edgeKey e2.source e2.target e2.label

/-! ### Helper lemmas -/

theorem lookup_mem {l : List (String × String)} {a b : String}
    (h : l.lookup a = some b) : (a, b) ∈ l := by
  induction l with
  | nil => simp [List.lookup] at h
  | cons p rest ih =>
    obtain ⟨k, v⟩ := p
    cases hk : (a == k) with
    | true =>
      rw [List.lookup, hk] at h
      obtain rfl : v = b := by simpa using h
      obtain rfl : a = k := by simpa using hk
      exact List.mem_cons_self _ _
    | false =>
      rw [List.lookup, hk] at h
      exact List.mem_cons_of_mem _ (ih h)

theorem lookup_none_fst {l : List (String × String)} {a : String}
    (h : l.lookup a = none) : a ∉ l.map Prod.fst := by
  induction l with
  | nil => simp
  | cons p rest ih =>
    obtain ⟨k, v⟩ := p
    cases hk : (a == k) with
    | true => rw [List.lookup, hk] at h; cases h
    | false =>
      rw [List.lookup, hk] at h
      simp only [List.map_cons, List.mem_cons]
      rintro (rfl | hmem)
      · simp at hk
      · exact ih h hmem

theorem goc_spec (nodes : List Node) (nodeMap : List (String × String))
    (label ty : String)
    (hmap : nodeMap = nodes.map (fun n => (n.label, n.id)))
    (hids : nodeIds nodes = (List.range nodes.length).map mkNodeId)
    (hnd : (nodes.map Node.label).Nodup)
    (hok : ∀ n ∈ nodes, NodeOk n)
    (hnew : NodeOk ⟨mkNodeId nodes.length, label, ty⟩) :
    (getOrCreateNode nodes nodeMap label ty).2.2 =
      (getOrCreateNode nodes nodeMap label ty).2.1.map (fun n => (n.label, n.id)) ∧
    nodeIds (getOrCreateNode nodes nodeMap label ty).2.1 =
      (List.range (getOrCreateNode nodes nodeMap label ty).2.1.length).map mkNodeId ∧
    ((getOrCreateNode nodes nodeMap label ty).2.1.map Node.label).Nodup ∧
    (∀ n ∈ (getOrCreateNode nodes nodeMap label ty).2.1, NodeOk n) ∧
    (getOrCreateNode nodes nodeMap label ty).1 ∈
      nodeIds (getOrCreateNode nodes nodeMap label ty).2.1 ∧
    (∀ x ∈ nodeIds nodes, x ∈ nodeIds (getOrCreateNode nodes nodeMap label ty).2.1) := by
  cases hl : nodeMap.lookup label with
  | some id =>
    simp only [getOrCreateNode, hl]
    refine ⟨hmap, hids, hnd, hok, ?_, fun x hx => hx⟩
    have hm := lookup_mem hl
    rw [hmap] at hm
    rcases List.mem_map.mp hm with ⟨n, hn, heq⟩
    have : n.id = id := congrArg Prod.snd heq
    exact this ▸ List.mem_map.mpr ⟨n, hn, rfl⟩
  | none =>
    have hnotmem : label ∉ nodes.map Node.label := by
      have h' := lookup_none_fst hl
      rw [hmap, List.map_map] at h'
      simpa using h'
    simp only [getOrCreateNode, hl]
    refine ⟨?_, ?_, ?_, ?_, ?_, ?_⟩
    · simp [hmap]
    · simp only [nodeIds, List.map_append, List.length_append, List.length_cons,
        List.length_nil, List.range_succ]
      rw [← nodeIds, hids]
      rfl
    · rw [List.map_append]
      refine List.Nodup.append hnd (by simp) ?_
      intro x hx hx'
      simp only [List.map_cons, List.map_nil, List.mem_singleton] at hx'
      exact hnotmem (hx' ▸ hx)
    · intro n hn
      rcases List.mem_append.mp hn with h' | h'
      · exact hok n h'
      · rcases List.mem_singleton.mp h' with rfl
        exact hnew
    · simp [nodeIds]
    · intro x hx
      simp only [nodeIds, List.map_append, List.mem_append]
      exact Or.inl hx

theorem nodeStep_edges (prev edgeLabel : Option String) (nodeLabel : String)
    (st : ParseState) :
    (nodeStep prev edgeLabel nodeLabel st).2.edges =
      st.edges ++ (match prev with
        | some p => [⟨p, (nodeStep prev edgeLabel nodeLabel st).1, edgeLabel⟩]
        | none => []) := by
  cases prev <;> simp [nodeStep]

theorem nodeStep_spec (prev edgeLabel : Option String) (nodeLabel : String)
    (st : ParseState) (hInv : Inv st)
    (hprev : ∀ p, prev = some p → p ∈ nodeIds st.nodes) :
    Inv (nodeStep prev edgeLabel nodeLabel st).2 ∧
    (nodeStep prev edgeLabel nodeLabel st).1 ∈
      nodeIds (nodeStep prev edgeLabel nodeLabel st).2.nodes ∧
    (∀ x ∈ nodeIds st.nodes, x ∈ nodeIds (nodeStep prev edgeLabel nodeLabel st).2.nodes) := by
  obtain ⟨hmap, hids, hedg, hlast, hnd, hok⟩ := hInv
  have hnew : NodeOk ⟨mkNodeId st.nodes.length,
      (if endsQ nodeLabel.data then String.mk (trimCh nodeLabel.data.dropLast)
        else nodeLabel),
      (if endsQ nodeLabel.data then "decision" else "process")⟩ := by
    refine ⟨?_, nodeLabel, ?_, rfl⟩
    · cases h : endsQ nodeLabel.data <;> simp [h]
    · cases h : endsQ nodeLabel.data <;> simp only [h] <;> simp
  obtain ⟨g1, g2, g3, g4, g5, g6⟩ := goc_spec st.nodes st.nodeMap
    (if endsQ nodeLabel.data then String.mk (trimCh nodeLabel.data.dropLast)
      else nodeLabel)
    (if endsQ nodeLabel.data then "decision" else "process")
    hmap hids hnd hok hnew
  have hnodes : (nodeStep prev edgeLabel nodeLabel st).2.nodes =
      (getOrCreateNode st.nodes st.nodeMap
        (if endsQ nodeLabel.data then String.mk (trimCh nodeLabel.data.dropLast)
          else nodeLabel)
        (if endsQ nodeLabel.data then "decision" else "process")).2.1 := by
    cases prev <;> rfl
  have hmap2 : (nodeStep prev edgeLabel nodeLabel st).2.nodeMap =
      (getOrCreateNode st.nodes st.nodeMap
        (if endsQ nodeLabel.data then String.mk (trimCh nodeLabel.data.dropLast)
          else nodeLabel)
        (if endsQ nodeLabel.data then "decision" else "process")).2.2 := by
    cases prev <;> rfl
  have hfst : (nodeStep prev edgeLabel nodeLabel st).1 =
      (getOrCreateNode st.nodes st.nodeMap
        (if endsQ nodeLabel.data then String.mk (trimCh nodeLabel.data.dropLast)
          else nodeLabel)
        (if endsQ nodeLabel.data then "decision" else "process")).1 := by
    cases prev <;> rfl
  have hlast2 : (nodeStep prev edgeLabel nodeLabel st).2.lastDecision =
      (if endsQ nodeLabel.data then some (nodeStep prev edgeLabel nodeLabel st).1
        else st.lastDecision) := by
    cases prev <;> rfl
  refine ⟨⟨?_, ?_, ?_, ?_, ?_, ?_⟩, ?_, ?_⟩
  · rw [hmap2, hnodes]; exact g1
  · rw [hnodes]; exact g2
  · intro e he
    rw [nodeStep_edges] at he
    rw [hnodes]
    rcases List.mem_append.mp he with h' | h'
    · obtain ⟨hf, ht⟩ := hedg e h'
      exact ⟨g6 _ hf, g6 _ ht⟩
    · cases prev with
      | none => simp at h'
      | some p =>
        obtain rfl := List.mem_singleton.mp h'
        exact ⟨g6 _ (hprev p rfl), g5⟩
  · intro d hd
    rw [hlast2] at hd
    rw [hnodes]
    by_cases hq : endsQ nodeLabel.data = true
    · rw [if_pos hq] at hd
      obtain rfl := Option.some.inj hd
      rw [hfst]; exact g5
    · rw [if_neg hq] at hd
      exact g6 _ (hlast d hd)
  · rw [hnodes]; exact g3
  · rw [hnodes]; exact g4
  · rw [hfst, hnodes]; exact g5
  · intro x hx
    rw [hnodes]
    exact g6 x hx

theorem tokenStep_cases (bG first : Bool) (prev pending : Option String)
    (st : ParseState) (token : String) :
    (∃ pnd, tokenStep bG first prev pending st token =
      ((if bG && first then st.lastDecision else prev), pnd, st)) ∨
    (∃ eL nL, tokenStep bG first prev pending st token =
      (some (nodeStep prev eL nL st).1, none, (nodeStep prev eL nL st).2)) := by
  unfold tokenStep
  split
  · exact Or.inl ⟨_, rfl⟩
  · split
    · exact Or.inl ⟨_, rfl⟩
    · exact Or.inr ⟨_, _, rfl⟩

theorem tokenStep_spec (bG first : Bool) (prev pending : Option String)
    (st : ParseState) (token : String) (h : Inv st)
    (hp : ∀ p, prev = some p → p ∈ nodeIds st.nodes) :
    Inv (tokenStep bG first prev pending st token).2.2 ∧
    (∀ p, (tokenStep bG first prev pending st token).1 = some p →
      p ∈ nodeIds (tokenStep bG first prev pending st token).2.2.nodes) ∧
    (∀ x ∈ nodeIds st.nodes,
      x ∈ nodeIds (tokenStep bG first prev pending st token).2.2.nodes) := by
  rcases tokenStep_cases bG first prev pending st token with ⟨pnd, he⟩ | ⟨eL, nL, he⟩
  · rw [he]
    refine ⟨h, ?_, fun x hx => hx⟩
    intro p hp'
    by_cases hbf : (bG && first) = true
    · rw [if_pos hbf] at hp'
      exact h.2.2.2.1 p hp'
    · rw [if_neg hbf] at hp'
      exact hp p hp'
  · rw [he]
    obtain ⟨h1, h2, h3⟩ := nodeStep_spec prev eL nL st h hp
    exact ⟨h1, fun p hp' => (Option.some.inj hp') ▸ h2, h3⟩

theorem tokenStep_edges_grow (bG first : Bool) (prev pending : Option String)
    (st : ParseState) (token : String) :
    ∃ t, (tokenStep bG first prev pending st token).2.2.edges = st.edges ++ t := by
  rcases tokenStep_cases bG first prev pending st token with ⟨pnd, he⟩ | ⟨eL, nL, he⟩
  · rw [he]
    exact ⟨[], (List.append_nil _).symm⟩
  · rw [he]
    exact ⟨_, nodeStep_edges prev eL nL st⟩

theorem pt_inv (toks : List String) : ∀ (bG first : Bool)
    (prev pending : Option String) (st : ParseState),
    Inv st → (∀ p, prev = some p → p ∈ nodeIds st.nodes) →
    Inv (processTokens bG toks first prev pending st) ∧
    (∀ x ∈ nodeIds st.nodes,
      x ∈ nodeIds (processTokens bG toks first prev pending st).nodes) := by
  induction toks with
  | nil =>
    intro bG first prev pending st h _
    exact ⟨h, fun x hx => hx⟩
  | cons token rest ih =>
    intro bG first prev pending st h hp
    obtain ⟨h1, h2, h3⟩ := tokenStep_spec bG first prev pending st token h hp
    rw [processTokens]
    obtain ⟨ha, hb⟩ := ih bG false _ _ _ h1 h2
    exact ⟨ha, fun x hx => hb x (h3 x hx)⟩

theorem pt_edges_grow (toks : List String) : ∀ (bG first : Bool)
    (prev pending : Option String) (st : ParseState),
    ∃ t, (processTokens bG toks first prev pending st).edges = st.edges ++ t := by
  induction toks with
  | nil =>
    intro bG first prev pending st
    exact ⟨[], (List.append_nil _).symm⟩
  | cons token rest ih =>
    intro bG first prev pending st
    obtain ⟨t1, ht1⟩ := tokenStep_edges_grow bG first prev pending st token
    obtain ⟨t2, ht2⟩ := ih bG false (tokenStep bG first prev pending st token).1
      (tokenStep bG first prev pending st token).2.1
      (tokenStep bG first prev pending st token).2.2
    refine ⟨t1 ++ t2, ?_⟩
    rw [processTokens]
    rw [ht2, ht1, List.append_assoc]

theorem pt_firstEdge (toks : List String) : ∀ (bG first : Bool)
    (prev pending : Option String) (st : ParseState) (d : String),
    prev = some d → ((bG && first) = true → st.lastDecision = some d) →
    ∀ ed, (processTokens bG toks first prev pending st).edges[st.edges.length]? =
      some ed → ed.«from» = d := by
  induction toks with
  | nil =>
    intro bG first prev pending st d _ _ ed hed
    rw [processTokens] at hed
    rw [List.getElem?_eq_none (le_refl st.edges.length)] at hed
    cases hed
  | cons token rest ih =>
    intro bG first prev pending st d hprev hres ed hed
    rw [processTokens] at hed
    rcases tokenStep_cases bG first prev pending st token with ⟨pnd, he⟩ | ⟨eL, nL, he⟩
    · rw [he] at hed
      have hprev1 : (if bG && first then st.lastDecision else prev) = some d := by
        by_cases hbf : (bG && first) = true
        · rw [if_pos hbf]
          exact hres hbf
        · rw [if_neg hbf]
          exact hprev
      exact ih bG false _ pnd st d hprev1 (fun hcon => absurd hcon (by simp)) ed hed
    · rw [he] at hed
      subst hprev
      obtain ⟨t2, ht2⟩ := pt_edges_grow rest bG false
        (some (nodeStep (some d) eL nL st).1) none (nodeStep (some d) eL nL st).2
      rw [ht2, nodeStep_edges] at hed
      simp only [List.append_assoc] at hed
      rw [List.getElem?_append_right (le_refl _)] at hed
      simp only [Nat.sub_self] at hed
      obtain rfl : (⟨d, (nodeStep (some d) eL nL st).1, eL⟩ : Edge) = ed := by
        simpa using hed
      rfl

theorem pb_inv (bG : Bool) (st : ParseState) (b : String) (h : Inv st) :
    Inv (processBranch bG st b) := by
  rw [processBranch]
  refine (pt_inv _ _ _ _ _ _ h ?_).1
  intro p hp
  by_cases hb : bG = true
  · rw [if_pos hb] at hp
    exact h.2.2.2.1 p hp
  · rw [if_neg hb] at hp
    cases hp

theorem pbs_inv (bs : List String) : ∀ (idx : Nat) (st : ParseState),
    Inv st → Inv (processBranches idx st bs) := by
  induction bs with
  | nil =>
    intro idx st h
    exact h
  | cons b rest ih =>
    intro idx st h
    rw [processBranches]
    exact ih _ _ (pb_inv _ _ _ h)

theorem inv_init : Inv ⟨[], [], [], none⟩ := by
  refine ⟨rfl, rfl, ?_, ?_, ?_, ?_⟩ <;> simp [nodeIds]

theorem parseWorkflow_wf (text : String) :
    nodeIds (parseWorkflow text).nodes =
      (List.range (parseWorkflow text).nodes.length).map mkNodeId ∧
    (∀ e ∈ (parseWorkflow text).edges,
      e.«from» ∈ nodeIds (parseWorkflow text).nodes ∧
      e.«to» ∈ nodeIds (parseWorkflow text).nodes) ∧
    ((parseWorkflow text).nodes.map Node.label).Nodup ∧
    (∀ n ∈ (parseWorkflow text).nodes, NodeOk n) := by
  rw [parseWorkflow]
  split
  · refine ⟨rfl, ?_, ?_, ?_⟩ <;> simp [nodeIds]
  · have h := pbs_inv
      ((((splitOnCh ';' (normalizeArrows text.data) []).map trimCh).filter
        (· ≠ [])).map String.mk) 0 ⟨[], [], [], none⟩ inv_init
    exact ⟨h.2.1, h.2.2.1, h.2.2.2.2.1, h.2.2.2.2.2⟩

/-! ### Lemmas about the `flowchartParser.js` parser -/

theorem addNodeFP_edges (st : FPState) (nodeId nodeLabel : String)
    (isDecision : Bool) :
    (addNodeFP st nodeId nodeLabel isDecision).edges = st.edges := by
  unfold addNodeFP
  split <;> rfl

theorem addEdgeFP_pairwise (st : FPState) (s t : String) (l : Option String)
    (h : st.edges.Pairwise KeyDistinct) :
    (addEdgeFP st s t l).edges.Pairwise KeyDistinct := by
  unfold addEdgeFP
  split
  · exact h
  · rename_i hany
    show (st.edges ++ [(⟨s, t, l⟩ : PEdge)]).Pairwise KeyDistinct
    rw [List.pairwise_append]
    refine ⟨h, List.pairwise_singleton _ _, ?_⟩
    intro a ha b hb
    rw [List.mem_singleton] at hb
    subst hb
    simp only [Bool.not_eq_true] at hany
    have hne := List.any_eq_false.mp hany a ha
    intro hkey
    exact hne (by simpa using hkey)

theorem partStepFP_pairwise (i : Nat) (pp : Option String) (st : FPState)
    (part : String) (h : st.edges.Pairwise KeyDistinct) :
    (partStepFP i pp st part).edges.Pairwise KeyDistinct := by
  have hn : ∀ (st' : FPState) (a b : String) (c : Bool),
      st'.edges.Pairwise KeyDistinct →
      (addNodeFP st' a b c).edges.Pairwise KeyDistinct := by
    intro st' a b c h'
    rw [addNodeFP_edges]
    exact h'
  cases pp with
  | none => exact hn st _ _ _ h
  | some pp => exact addEdgeFP_pairwise _ _ _ _ (hn st _ _ _ h)

theorem processPartsFP_pairwise (parts : List String) : ∀ (i : Nat)
    (pp : Option String) (st : FPState), st.edges.Pairwise KeyDistinct →
    (processPartsFP i pp st parts).edges.Pairwise KeyDistinct := by
  induction parts with
  | nil =>
    intro i pp st h
    exact h
  | cons part rest ih =>
    intro i pp st h
    exact ih (i + 1) (some part) _ (partStepFP_pairwise i pp st part h)

theorem parseWorkflowFP_pairwise (text : String) :
    (parseWorkflowFP text).edges.Pairwise KeyDistinct := by
  rw [parseWorkflowFP]
  split
  · simp
  · have hgen : ∀ (paths : List String) (st : FPState),
        st.edges.Pairwise KeyDistinct →
        ((paths.foldl (fun st path => processPartsFP 0 none st
          ((((splitArrowA path.data []).map trimCh).filter (· ≠ [])).map
            String.mk)) st).edges).Pairwise KeyDistinct := by
      intro paths
      induction paths with
      | nil =>
        intro st h
        exact h
      | cons p rest ih =>
        intro st h
        rw [List.foldl_cons]
        exact ih _ (processPartsFP_pairwise _ _ _ _ h)
    exact hgen _ ⟨[], [], []⟩ (by simp)

/-! ### The claims -/

/-- C1: on the input
`"Start -> Qualify lead? yes -> Book call; no -> Send email -> End"`,
the `FlowCanvas.jsx` `parseWorkflow` returns exactly the five nodes Start,
Qualify lead (decision), Book call, Send email, End and the four edges
Start→Qualify lead, Qualify lead→Book call ("yes"),
Qualify lead→Send email ("no"), Send email→End — while the duplicate
`parseWorkflow` in `utils/flowchartParser.js`, run on the very example its
own header documents, instead produces six nodes, among them a spurious
node labelled "no" and a decision node whose label keeps the
`"? yes"` text. -/
theorem C1_concrete_scenario :
    parseWorkflow "Start -> Qualify lead? yes -> Book call; no -> Send email -> End" =
      ⟨[⟨"node_0", "Start", "process"⟩, ⟨"node_1", "Qualify lead", "decision"⟩,
        ⟨"node_2", "Book call", "process"⟩, ⟨"node_3", "Send email", "process"⟩,
        ⟨"node_4", "End", "process"⟩],
       [⟨"node_0", "node_1", none⟩, ⟨"node_1", "node_2", some "yes"⟩,
        ⟨"node_1", "node_3", some "no"⟩, ⟨"node_3", "node_4", none⟩]⟩ ∧
    (parseWorkflowFP
        "Start -> Qualify lead? yes -> Book call; no -> Send email -> End").nodes.map
      Node.label =
      ["Start", "Qualify lead? yes", "Book call", "no", "Send email", "End"] :=
  ⟨rfl, rfl⟩

/-- C2: in the `FlowCanvas.jsx` parser every edge endpoint is the id of a
node of the returned graph, for every input text; the duplicate parser in
`utils/flowchartParser.js` violates this already on `"A? -> B"`, where the
emitted edge has source id `"a"` but the node ids are `"a_"` and `"b"`. -/
theorem C2_edge_endpoints :
    (∀ text : String, ∀ e ∈ (parseWorkflow text).edges,
      (∃ n ∈ (parseWorkflow text).nodes, n.id = e.«from») ∧
      (∃ n ∈ (parseWorkflow text).nodes, n.id = e.«to»)) ∧
    ((parseWorkflowFP "A? -> B").edges.map PEdge.source = ["a"] ∧
      "a" ∉ (parseWorkflowFP "A? -> B").nodes.map Node.id) := by
  constructor
  · intro text e he
    obtain ⟨-, hedg, -, -⟩ := parseWorkflow_wf text
    obtain ⟨hf, ht⟩ := hedg e he
    constructor
    · rcases List.mem_map.mp hf with ⟨n, hn, hid⟩
      exact ⟨n, hn, hid⟩
    · rcases List.mem_map.mp ht with ⟨n, hn, hid⟩
      exact ⟨n, hn, hid⟩
  · exact ⟨rfl, by decide⟩

/-- Witness for C2 at the input `"A -> B"` and its single edge. -/
theorem C2_edge_endpoints_witness :
    (⟨"node_0", "node_1", none⟩ : Edge) ∈ (parseWorkflow "A -> B").edges ∧
    (∃ n ∈ (parseWorkflow "A -> B").nodes,
      n.id = (⟨"node_0", "node_1", none⟩ : Edge).«from») := by
  have hm : (⟨"node_0", "node_1", none⟩ : Edge) ∈ (parseWorkflow "A -> B").edges := by
    decide
  exact ⟨hm, (C2_edge_endpoints.1 "A -> B" _ hm).1⟩

/-- C3: in a continuation branch (`branchIndex > 0`, where the starting
`previousNodeId` is the `lastDecisionNode` pointer), if a decision node
`d` has been resolved, then the first edge the branch emits — the incoming
edge of its first resolved node — has source `d`; and concretely,
`"A? yes -> B; no -> C"` yields nodes A (decision), B, C with edges
A→B ("yes") and A→C ("no"). -/
theorem C3_branch_continuation :
    (∀ (toks : List String) (pending : Option String) (st : ParseState)
      (d : String), st.lastDecision = some d →
      ∀ ed, (processTokens true toks true st.lastDecision pending st).edges[st.edges.length]? =
        some ed → ed.«from» = d) ∧
    parseWorkflow "A? yes -> B; no -> C" =
      ⟨[⟨"node_0", "A", "decision"⟩, ⟨"node_1", "B", "process"⟩,
        ⟨"node_2", "C", "process"⟩],
       [⟨"node_0", "node_1", some "yes"⟩, ⟨"node_0", "node_2", some "no"⟩]⟩ := by
  constructor
  · intro toks pending st d hld ed hed
    exact pt_firstEdge toks true true st.lastDecision pending st d hld
      (fun _ => hld) ed hed
  · rfl

/-- Witness for C3: one continuation branch `["X"]` run from a state whose
last decision is `"node_0"`. -/
theorem C3_branch_continuation_witness :
    (ParseState.mk [⟨"node_0", "A", "decision"⟩] [("A", "node_0")] []
        (some "node_0")).lastDecision = some "node_0" ∧
    Edge.«from» ⟨"node_0", "node_1", none⟩ = "node_0" := by
  refine ⟨rfl, ?_⟩
  exact C3_branch_continuation.1 ["X"] none
    ⟨[⟨"node_0", "A", "decision"⟩], [("A", "node_0")], [], some "node_0"⟩
    "node_0" rfl ⟨"node_0", "node_1", none⟩ (by rfl)

/-- C4: every node of the `FlowCanvas.jsx` parser satisfies the
decision-detection contract `NodeOk` (type `decision` iff its source token
ended in `'?'`, with the `'?'` stripped from the stored label); the
duplicate parser in `utils/flowchartParser.js` violates both halves: on
`"A?"` it keeps the `'?'` in the stored label, and on `"Is x? ok"` it
marks a decision although the token does not end in `'?'`. -/
theorem C4_decision_detection :
    (∀ text : String, ∀ n ∈ (parseWorkflow text).nodes, NodeOk n) ∧
    (parseWorkflowFP "A?").nodes = [⟨"a_", "A?", "decision"⟩] ∧
    (parseWorkflowFP "Is x? ok").nodes = [⟨"is_x__ok", "Is x? ok", "decision"⟩] := by
  refine ⟨?_, rfl, rfl⟩
  intro text n hn
  exact (parseWorkflow_wf text).2.2.2 n hn

/-- Witness for C4 at the decision node of `"A? -> B"`. -/
theorem C4_decision_detection_witness :
    (⟨"node_0", "A", "decision"⟩ : Node) ∈ (parseWorkflow "A? -> B").nodes ∧
    NodeOk ⟨"node_0", "A", "decision"⟩ := by
  have hm : (⟨"node_0", "A", "decision"⟩ : Node) ∈ (parseWorkflow "A? -> B").nodes := by
    decide
  exact ⟨hm, C4_decision_detection.1 "A? -> B" _ hm⟩

/-- C5: node identity is exact case-sensitive match on the cleaned label:
a label already in the map reuses its id and changes nothing, a fresh
label allocates the next sequential id; consequently ids are
`node_0, node_1, …` in order and labels are pairwise distinct, a repeated
label (`"a -> a"`) yields one node, and labels differing in case
(`"a -> A"`) or punctuation (`"a -> a."`) yield distinct nodes. -/
theorem C5_node_identity :
    (∀ (nodes : List Node) (nodeMap : List (String × String))
      (label ty id : String), nodeMap.lookup label = some id →
      getOrCreateNode nodes nodeMap label ty = (id, nodes, nodeMap)) ∧
    (∀ (nodes : List Node) (nodeMap : List (String × String)) (label ty : String),
      nodeMap.lookup label = none →
      getOrCreateNode nodes nodeMap label ty =
        (mkNodeId nodes.length, nodes ++ [⟨mkNodeId nodes.length, label, ty⟩],
          nodeMap ++ [(label, mkNodeId nodes.length)])) ∧
    (∀ text : String,
      (parseWorkflow text).nodes.map Node.id =
        (List.range (parseWorkflow text).nodes.length).map mkNodeId ∧
      ((parseWorkflow text).nodes.map Node.label).Nodup) ∧
    parseWorkflow "a -> a" =
      ⟨[⟨"node_0", "a", "process"⟩], [⟨"node_0", "node_0", none⟩]⟩ ∧
    parseWorkflow "a -> A" =
      ⟨[⟨"node_0", "a", "process"⟩, ⟨"node_1", "A", "process"⟩],
        [⟨"node_0", "node_1", none⟩]⟩ ∧
    parseWorkflow "a -> a." =
      ⟨[⟨"node_0", "a", "process"⟩, ⟨"node_1", "a.", "process"⟩],
        [⟨"node_0", "node_1", none⟩]⟩ := by
  refine ⟨?_, ?_, ?_, rfl, rfl, rfl⟩
  · intro nodes nodeMap label ty id h
    unfold getOrCreateNode
    rw [h]
  · intro nodes nodeMap label ty h
    unfold getOrCreateNode
    rw [h]
  · intro text
    obtain ⟨hids, -, hnd, -⟩ := parseWorkflow_wf text
    exact ⟨hids, hnd⟩

/-- Witness for C5: a map hit reuses the stored id and leaves the state
unchanged. -/
theorem C5_node_identity_witness :
    ([("x", "node_7")] : List (String × String)).lookup "x" = some "node_7" ∧
    getOrCreateNode [] [("x", "node_7")] "x" "process" =
      ("node_7", [], [("x", "node_7")]) :=
  ⟨rfl, C5_node_identity.1 [] [("x", "node_7")] "x" "process" "node_7" rfl⟩

/-- C6: labels are pairwise distinct in every parse (so a repeated cleaned
label always denotes the single existing node), and concretely
`"A? yes -> X; no -> Y -> X"` produces exactly one node labelled X with
incoming edges from both branch predecessors A and Y. -/
theorem C6_merge_property :
    (∀ text : String, ((parseWorkflow text).nodes.map Node.label).Nodup) ∧
    parseWorkflow "A? yes -> X; no -> Y -> X" =
      ⟨[⟨"node_0", "A", "decision"⟩, ⟨"node_1", "X", "process"⟩,
        ⟨"node_2", "Y", "process"⟩],
       [⟨"node_0", "node_1", some "yes"⟩, ⟨"node_0", "node_2", some "no"⟩,
        ⟨"node_2", "node_1", none⟩]⟩ :=
  ⟨fun text => (parseWorkflow_wf text).2.2.1, rfl⟩

/-- C7 counterexample: given a node list `[a]` and an edge `a→b` whose
target id is unknown, `calculateLayout` does not report any error — it
returns a normal layout that still contains the dangling edge and
positions the one known node. -/
theorem C7_counterexample :
    (calculateLayout [⟨"a", "A", "process"⟩] [⟨"a", "b", none⟩]).edges =
      [⟨"a", "b", none⟩] ∧
    (calculateLayout [⟨"a", "A", "process"⟩] [⟨"a", "b", none⟩]).nodes.map
      PNode.id = ["a"] :=
  ⟨rfl, rfl⟩

/-- C7 (amended): `calculateLayout` performs no endpoint validation and has
no error path at all: for every input, also one with edges whose endpoints
are not in the node list, it returns a layout whose edge list is the input
edge list unchanged and which positions exactly the input nodes. -/
theorem C7_layout_no_failfast (nodes : List Node) (edges : List PEdge) :
    (calculateLayout nodes edges).edges = edges ∧
    (calculateLayout nodes edges).nodes.length = nodes.length := by
  constructor
  · rfl
  · show (nodes.map _).length = nodes.length
    exact List.length_map _ _

/-- C8: `"A? [approved] -> B"` parses to a decision node A and a node B
joined by a single edge labelled "approved" — the bracketed token creates
no node — matching the edge-label semantics of the keyword form
`"A? yes -> B"`. -/
theorem C8_bracket_label :
    parseWorkflow "A? [approved] -> B" =
      ⟨[⟨"node_0", "A", "decision"⟩, ⟨"node_1", "B", "process"⟩],
       [⟨"node_0", "node_1", some "approved"⟩]⟩ ∧
    parseWorkflow "A? yes -> B" =
      ⟨[⟨"node_0", "A", "decision"⟩, ⟨"node_1", "B", "process"⟩],
       [⟨"node_0", "node_1", some "yes"⟩]⟩ :=
  ⟨rfl, rfl⟩

/-- C9: `calculateLayout` is a pure function of its two arguments — the
source contains no randomness and no ambient state — so two calls on
identical graphs return identical layouts. -/
theorem C9_layout_deterministic (nodes1 : List Node) (edges1 : List PEdge)
    (nodes2 : List Node) (edges2 : List PEdge)
    (hn : nodes1 = nodes2) (he : edges1 = edges2) :
    calculateLayout nodes1 edges1 = calculateLayout nodes2 edges2 := by
  rw [hn, he]

/-- Witness for C9 on the empty graph. -/
theorem C9_layout_deterministic_witness :
    ([] : List Node) = [] ∧ ([] : List PEdge) = [] ∧
    calculateLayout [] [] = calculateLayout [] [] :=
  ⟨rfl, rfl, C9_layout_deterministic [] [] [] [] rfl rfl⟩

/-- C10: the edge list returned by `utils/flowchartParser.js` never
contains two edges with the same (source, target, label) triple, for every
input; an exact repetition (`"A -> B; A -> B"`) is suppressed, while two
edges on the same node pair with different labels
(`"A? -> yes B; A? -> no B"`) are both kept. -/
theorem C10_no_duplicate_triples :
    (∀ text : String, (parseWorkflowFP text).edges.Pairwise
      (fun e1 e2 => ¬(e1.source = e2.source ∧ e1.target = e2.target ∧
        e1.label = e2.label))) ∧
    parseWorkflowFP "A -> B; A -> B" =
      ⟨[⟨"a", "A", "process"⟩, ⟨"b", "B", "process"⟩], [⟨"a", "b", none⟩]⟩ ∧
    parseWorkflowFP "A? -> yes B; A? -> no B" =
      ⟨[⟨"a_", "A?", "decision"⟩, ⟨"b", "B", "process"⟩],
       [⟨"a", "b", some "yes"⟩, ⟨"a", "b", some "no"⟩]⟩ := by
  refine ⟨?_, rfl, rfl⟩
  intro text
  refine List.Pairwise.imp ?_ (parseWorkflowFP_pairwise text)
  intro e1 e2 hk htriple
  obtain ⟨hs, ht, hl⟩ := htriple
  exact hk (by rw [hs, ht, hl])

end NapkinFlow
